import Mathlib

/-!
# Single-use SSH credentials: `internal/command/ssh/ssh_terminal.go`

A shallow embedding of `marshalED25519PrivateKey`, `singleUseSSHCertificate`
and `SSHConnect`, together with the library routines they call
(`ssh.Marshal`, `ed25519.PrivateKey.Public`, `pem.EncodeToMemory`,
`base64.StdEncoding`).

Conventions.
* A Go `[]byte` or `string` is a `List Byte`, a byte being a number below 256.
* A Go `uint32` is a natural number; the big-endian writer keeps its low 32
  bits, as the conversion `uint32(n)` does.
* A Go panic is the result `none` of the encoder and the outcome `panicked`
  of `SSHConnect`.
* Calls that leave the process (key generation, the certificate authority,
  the SSH client) are parameters, and every such call is recorded in an
  event log that is returned with the result.
-/

namespace SSHTerminal

/-! ## Bytes and strings -/

/-- One octet. -/
abbrev Byte := Fin 256

/-- The bytes of a Go string constant (all constants used here are ASCII). -/
def ascii (s : String) : List Byte :=
  s.toList.map (fun ch => Fin.ofNat ch.toNat)

/-- The conversion `byte(n)` of a Go `int`. -/
def byte (n : Nat) : Byte := Fin.ofNat n

/-! ## `golang.org/x/crypto/ssh`: `Marshal` -/

/-- Library `appendU32`: the four bytes of `uint32(n)`, most significant first. -/
def appendU32 (buf : List Byte) (n : Nat) : List Byte :=
  buf ++ [byte (n / 2 ^ 24), byte (n / 2 ^ 16), byte (n / 2 ^ 8), byte n]

/-- Library `appendInt`: `appendU32(buf, uint32(n))`. -/
def appendInt (buf : List Byte) (n : Nat) : List Byte :=
  appendU32 buf (n % 2 ^ 32)

/-- The kinds of struct field that `ssh.Marshal` meets in this file:
`uint32`, `string`, `[]byte`, and `[]byte` tagged `ssh:"rest"`. -/
inductive Field where
  | u32 (n : Nat)
  | str (s : List Byte)
  | bytes (b : List Byte)
  | rest (b : List Byte)
  deriving DecidableEq, Repr

/-- Library `marshalStruct`, one field: a `uint32` is written big-endian, a
string or byte slice is written with its length in front, a slice tagged
`ssh:"rest"` is written raw. -/
def marshalField (out : List Byte) : Field → List Byte
  | .u32 n => appendU32 out (n % 2 ^ 32)
  | .str s => appendInt out s.length ++ s
  | .bytes b => appendInt out b.length ++ b
  | .rest b => out ++ b

/-- Library `marshalStruct`: the fields in declaration order. -/
def marshalStruct (out : List Byte) (fields : List Field) : List Byte :=
  fields.foldl marshalField out

/-- Library `ssh.Marshal` on a struct given by its fields. -/
def Marshal (fields : List Field) : List Byte :=
  marshalStruct [] fields

/-- Library constant `ssh.KeyAlgoED25519`. -/
def KeyAlgoED25519 : List Byte := ascii "ssh-ed25519"

/-! ## `crypto/ed25519`: `PrivateKey.Public` -/

/-- Library constant `ed25519.PublicKeySize`. -/
def PublicKeySize : Nat := 32

/-- Library `copy(dst, src)`: overwrite the first `min (len dst) (len src)`
bytes of `dst`. -/
def copyInto (dst src : List Byte) : List Byte :=
  src.take dst.length ++ dst.drop src.length

/-- Library `ed25519.PrivateKey.Public`:
`publicKey := make([]byte, PublicKeySize); copy(publicKey, priv[32:])`.
The slice expression `priv[32:]` panics when `priv` has fewer than 32 bytes. -/
def Public (priv : List Byte) : Option (List Byte) :=
  if priv.length < 32 then none
  else some (copyInto (List.replicate PublicKeySize 0) (priv.drop 32))

/-! ## `encoding/base64` and `encoding/pem` -/

/-- Library constant `encodeStd`, the alphabet of `base64.StdEncoding`. -/
def encodeStd : List Byte :=
  ascii "ABCDEFGHIJKLMNOPQRSTUVWXYZabcdefghijklmnopqrstuvwxyz0123456789+/"

/-- The character of a six-bit value. -/
def encSextet (v : Nat) : Byte := encodeStd.getD v 0

/-- Library constant `base64.StdPadding`, the character `=`. -/
def StdPadding : Byte := 61

/-- Library `base64.StdEncoding` encoder: three bytes become four characters,
a final group of one or two bytes is padded with `=`. -/
def base64Encode : List Byte → List Byte
  | a :: b :: c :: tl =>
      encSextet (a.val / 4) :: encSextet (a.val % 4 * 16 + b.val / 16) ::
        encSextet (b.val % 16 * 4 + c.val / 64) :: encSextet (c.val % 64) ::
        base64Encode tl
  | [a, b] =>
      [encSextet (a.val / 4), encSextet (a.val % 4 * 16 + b.val / 16),
        encSextet (b.val % 16 * 4), StdPadding]
  | [a] => [encSextet (a.val / 4), encSextet (a.val % 4 * 16), StdPadding, StdPadding]
  | [] => []

/-- Library constant `pemLineLength`. -/
def pemLineLength : Nat := 64

/-- Library `lineBreaker`: `used` characters are pending in the current line;
a line feed follows every 64th character, and `Close` ends a line that has
pending characters. -/
def lineBreaker (used : Nat) : List Byte → List Byte
  | [] => if used = 0 then [] else [10]
  | ch :: tl =>
      if used + 1 = pemLineLength then ch :: 10 :: lineBreaker 0 tl
      else ch :: lineBreaker (used + 1) tl

/-- A `pem.Block` without headers. -/
structure Block where
  /-- The label of the block. -/
  Typ : List Byte
  /-- The payload of the block. -/
  Bytes : List Byte
  deriving DecidableEq, Repr

/-- Library `pem.EncodeToMemory` for a block without headers. -/
def EncodeToMemory (b : Block) : List Byte :=
  ascii "-----BEGIN " ++ b.Typ ++ ascii "-----\n" ++
    lineBreaker 0 (base64Encode b.Bytes) ++
    ascii "-----END " ++ b.Typ ++ ascii "-----\n"

/-! ## `marshalED25519PrivateKey` -/

/-- The anonymous struct `pk1`. -/
structure Pk1 where
  Check1 : Nat
  Check2 : Nat
  Keytype : List Byte
  Pub : List Byte
  Priv : List Byte
  Comment : List Byte
  Pad : List Byte
  deriving DecidableEq, Repr

/-- The fields of `pk1` as `ssh.Marshal` sees them; `Pad` is tagged `ssh:"rest"`. -/
def Pk1.fields (p : Pk1) : List Field :=
  [.u32 p.Check1, .u32 p.Check2, .str p.Keytype, .bytes p.Pub, .bytes p.Priv,
    .str p.Comment, .rest p.Pad]

/-- The anonymous struct `w`. -/
structure W where
  CipherName : List Byte
  KdfName : List Byte
  KdfOpts : List Byte
  NumKeys : Nat
  PubKey : List Byte
  PrivKeyBlock : List Byte
  deriving DecidableEq, Repr

/-- The fields of `w` as `ssh.Marshal` sees them. -/
def W.fields (w : W) : List Field :=
  [.str w.CipherName, .str w.KdfName, .str w.KdfOpts, .u32 w.NumKeys, .bytes w.PubKey,
    .bytes w.PrivKeyBlock]

/-- Lines 163-183: `pk1` before the padding is computed, for the check
integer `ci` drawn by `rand.Uint32()` and the public key `pubKey`. -/
def pk1Init (key comment : List Byte) (ci : Nat) (pubKey : List Byte) : Pk1 :=
  { Check1 := ci, Check2 := ci, Keytype := KeyAlgoED25519, Pub := pubKey, Priv := key,
    Comment := comment, Pad := [] }

/-- Line 188: `blockLen := len(sshCrypt.Marshal(pk1))`. -/
def blockLen (pk1 : Pk1) : Nat := (Marshal pk1.fields).length

/-- Lines 187-189: `padLen := (bs - (blockLen % bs)) % bs` with `bs := 8`. -/
def padLen (pk1 : Pk1) : Nat :=
  let bs := 8
  (bs - blockLen pk1 % bs) % bs

/-- Lines 190-194: `pk1.Pad = make([]byte, padLen)` and
`pk1.Pad[i] = byte(i + 1)` for `i` from `0` to `padLen - 1`. -/
def pk1Padded (pk1 : Pk1) : Pk1 :=
  { pk1 with Pad := (List.range (padLen pk1)).map (fun i => byte (i + 1)) }

/-- Lines 196-199: the hand-built head of the public-key record,
`00 00 00 0b "ssh-ed25519" 00 00 00 20`. The comment on line 196 writes the
fourth byte as `\n` (`0x0a`); the code on line 197 writes `0x0b`, the length
of `ssh-ed25519`. -/
def pubKeyHead : List Byte :=
  [0x0, 0x0, 0x0, 0x0b] ++ KeyAlgoED25519 ++ [0x0, 0x0, 0x0, 0x20]

/-- Lines 201-207: the struct `w`. -/
def wOf (pubKey : List Byte) (pk1 : Pk1) : W :=
  { CipherName := ascii "none", KdfName := ascii "none", KdfOpts := ascii "", NumKeys := 1,
    PubKey := ([] ++ pubKeyHead) ++ pubKey, PrivKeyBlock := Marshal pk1.fields }

/-- Lines 152 and 209: `magic`, then `magic = append(magic, sshCrypt.Marshal(w)...)`. -/
def containerOf (w : W) : List Byte :=
  (ascii "openssh-key-v1" ++ [0]) ++ Marshal w.fields

/-- The function `marshalED25519PrivateKey(key, comment)`, with the value `ci`
returned by `rand.Uint32()` as a third argument. The result is `none` when
`key.Public()` panics. -/
def marshalED25519PrivateKey (key comment : List Byte) (ci : Nat) : Option (List Byte) := do
  let pubKey ← Public key
  let pk1 := pk1Padded (pk1Init key comment ci pubKey)
  let w := wOf pubKey pk1
  pure (EncodeToMemory { Typ := ascii "OPENSSH PRIVATE KEY", Bytes := containerOf w })

/-! ## A reader of the container

The repository holds no reader of the container. Every definition of this
section is modelled from the description of the format, as a standard reader
applies it: the text envelope with its label, a base64 body, and inside it
the unencrypted single-key `openssh-key-v1` layout, with the key type and the
comment read as C strings. It accepts nothing else. -/

/-- The six-bit value of a base64 character. -/
def decSextet (ch : Byte) : Option Nat :=
  let i := encodeStd.indexOf ch
  if i < 64 then some i else none

/-- Base64 decoding with `=` padding: groups of four characters, of which
only the last may end in one or two `=`. -/
def base64Decode : List Byte → Option (List Byte)
  | [] => some []
  | c0 :: c1 :: c2 :: c3 :: tl =>
      match decSextet c0, decSextet c1 with
      | some s0, some s1 =>
          if c3 = StdPadding then
            if tl = [] then
              if c2 = StdPadding then some [byte (s0 * 4 + s1 / 16)]
              else
                match decSextet c2 with
                | some s2 => some [byte (s0 * 4 + s1 / 16), byte (s1 % 16 * 16 + s2 / 4)]
                | none => none
            else none
          else
            match decSextet c2, decSextet c3, base64Decode tl with
            | some s2, some s3, some r =>
                some (byte (s0 * 4 + s1 / 16) :: byte (s1 % 16 * 16 + s2 / 4) ::
                  byte (s2 % 4 * 64 + s3) :: r)
            | _, _, _ => none
      | _, _ => none
  | _ => none

/-- Remove `p` from the front of `l`, failing when `l` does not start with `p`. -/
def dropLeading (p l : List Byte) : Option (List Byte) :=
  if l.take p.length = p then some (l.drop p.length) else none

/-- Remove `s` from the end of `l`, failing when `l` does not end with `s`. -/
def dropTrailing (s l : List Byte) : Option (List Byte) :=
  if s.length ≤ l.length ∧ l.drop (l.length - s.length) = s then
    some (l.take (l.length - s.length))
  else none

/-- Remove the text envelope with the given label: the BEGIN line, the END
line, and the line feeds of the base64 body between them. -/
def pemDecode (label data : List Byte) : Option (List Byte) :=
  match dropLeading (ascii "-----BEGIN " ++ label ++ ascii "-----\n") data with
  | none => none
  | some r =>
      match dropTrailing (ascii "-----END " ++ label ++ ascii "-----\n") r with
      | none => none
      | some body => base64Decode (body.filter (fun ch => ch ≠ 10))

/-- Read a 4-byte big-endian integer. -/
def readU32 : List Byte → Option (Nat × List Byte)
  | a :: b :: c :: d :: tl => some (a.val * 2 ^ 24 + b.val * 2 ^ 16 + c.val * 2 ^ 8 + d.val, tl)
  | _ => none

/-- Read a length-prefixed byte sequence. -/
def readString (l : List Byte) : Option (List Byte × List Byte) :=
  match readU32 l with
  | none => none
  | some (n, tl) => if n ≤ tl.length then some (tl.take n, tl.drop n) else none

/-- Modelled from the spec: what the standard reader, which is not in the
repository, returns: public key, private key, comment. -/
structure ParsedKey where
  Pub : List Byte
  Priv : List Byte
  Comment : List Byte
  deriving DecidableEq, Repr

/-- The padding `1, 2, ..., n`. -/
def padBytes (n : Nat) : List Byte := (List.range n).map (fun i => byte (i + 1))

/-- Modelled from the spec: the reader of a C string, which is not in the
repository. A length-prefixed byte sequence is a C string when no zero byte
stands before its last byte; a zero byte in last position ends the string and
is not part of it. -/
def readCString (l : List Byte) : Option (List Byte × List Byte) :=
  match readString l with
  | none => none
  | some (s, tl) =>
      if (0 : Byte) ∈ s.dropLast then none
      else if s.getLast? = some 0 then some (s.dropLast, tl)
      else some (s, tl)

/-- Modelled from the spec: the reader of the public-key record, which is not
in the repository: key type `ssh-ed25519`, then a 32-byte public key, and
nothing more. -/
def readPubKeyRecord (record : List Byte) : Option (List Byte) :=
  match readString record with
  | none => none
  | some (keytype, r) =>
      match readString r with
      | none => none
      | some (pub, r) =>
          if keytype = ascii "ssh-ed25519" ∧ pub.length = 32 ∧ r = [] then some pub else none

/-- Modelled from the spec: the reader of the private-key block, which is not
in the repository: a length that is a multiple of 8, two equal check
integers, key type, public key, 64-byte private key ending in the public key,
the comment as a C string, and fewer than 8 padding bytes `1, 2, ...`. -/
def readPrivKeyBlock (block : List Byte) : Option ParsedKey :=
  match readU32 block with
  | none => none
  | some (check1, b) =>
  match readU32 b with
  | none => none
  | some (check2, b) =>
  match readString b with
  | none => none
  | some (keytype, b) =>
  match readString b with
  | none => none
  | some (pub, b) =>
  match readString b with
  | none => none
  | some (priv, b) =>
  match readCString b with
  | none => none
  | some (comment, pad) =>
      if block.length % 8 = 0 ∧ check1 = check2 ∧ keytype = ascii "ssh-ed25519" ∧
          pub.length = 32 ∧ priv.length = 64 ∧ priv.drop 32 = pub ∧
          pad.length < 8 ∧ pad = padBytes pad.length then
        some { Pub := pub, Priv := priv, Comment := comment }
      else none

/-- Modelled from the spec: the reader of the unencrypted single-key
`openssh-key-v1` layout, which is not in the repository: magic, cipher `none`,
kdf `none`, empty kdf options, key count 1, public-key record, private-key
block, nothing after; the two public keys must agree. -/
def readOpenSSHKeyV1 (data : List Byte) : Option ParsedKey :=
  match dropLeading (ascii "openssh-key-v1" ++ [0]) data with
  | none => none
  | some r =>
  match readString r with
  | none => none
  | some (cipher, r) =>
  match readString r with
  | none => none
  | some (kdf, r) =>
  match readString r with
  | none => none
  | some (kdfOpts, r) =>
  match readU32 r with
  | none => none
  | some (numKeys, r) =>
  match readString r with
  | none => none
  | some (record, r) =>
  match readString r with
  | none => none
  | some (block, r) =>
      if cipher = ascii "none" ∧ kdf = ascii "none" ∧ kdfOpts = [] ∧ numKeys = 1 ∧ r = [] then
        match readPubKeyRecord record, readPrivKeyBlock block with
        | some pub, some parsed => if parsed.Pub = pub then some parsed else none
        | _, _ => none
      else none

/-- The label of the text envelope. -/
def pemLabel : List Byte := ascii "OPENSSH PRIVATE KEY"

/-- Modelled from the spec: the standard reader of a private-key file, which
is not in the repository: remove the envelope labelled `OPENSSH PRIVATE KEY`,
then read the layout. -/
def readPrivateKey (pemBytes : List Byte) : Option ParsedKey :=
  match pemDecode pemLabel pemBytes with
  | none => none
  | some data => readOpenSSHKeyV1 data

/-- Length-prefixed encoding as `ssh.Marshal` writes it: the four bytes of
`uint32(len(x))`, most significant first, then the bytes. For a sequence of
`2 ^ 32` bytes or more the four bytes hold the length modulo `2 ^ 32`. -/
def lp (x : List Byte) : List Byte :=
  [byte (x.length % 2 ^ 32 / 2 ^ 24), byte (x.length % 2 ^ 32 / 2 ^ 16),
    byte (x.length % 2 ^ 32 / 2 ^ 8), byte (x.length % 2 ^ 32)] ++ x

/-- The 4-byte big-endian form of a 32-bit integer. -/
def be32 (n : Nat) : List Byte :=
  [byte (n % 2 ^ 32 / 2 ^ 24), byte (n % 2 ^ 32 / 2 ^ 16), byte (n % 2 ^ 32 / 2 ^ 8),
    byte (n % 2 ^ 32)]

/-- The outer layout of the format: magic, cipher name, kdf name, kdf
options, key count 1, public-key record, private-key block. -/
def outerLayout (pub block : List Byte) : List Byte :=
  ascii "openssh-key-v1" ++ [0] ++ lp (ascii "none") ++ lp (ascii "none") ++ lp (ascii "") ++
    be32 1 ++ lp (lp (ascii "ssh-ed25519") ++ lp pub) ++ lp block

/-- The 4-byte big-endian form of `n` as the format describes it: four bytes,
most significant first, whose value is `n`. No such form exists for
`n ≥ 2 ^ 32`. -/
def bigEndian4 (n : Nat) : Option (List Byte) :=
  if n < 2 ^ 32 then some [byte (n / 2 ^ 24), byte (n / 2 ^ 16), byte (n / 2 ^ 8), byte n]
  else none

/-- Length-prefixed encoding as the format describes it: the 4-byte
big-endian length of `x`, then `x`. -/
def lpExact (x : List Byte) : Option (List Byte) :=
  match bigEndian4 x.length with
  | none => none
  | some len => some (len ++ x)

/-- The outer layout as the format describes it, every length prefix being the
4-byte big-endian length: the 15 bytes `openssh-key-v1` and `0x00`, then
`lp "none"`, `lp "none"`, `lp ""`, the 4-byte big-endian integer 1,
`lp (lp "ssh-ed25519" ++ lp pub)` and `lp block`, with nothing after. -/
def layoutExact (pub block : List Byte) : Option (List Byte) :=
  match lpExact (ascii "none"), lpExact (ascii ""), bigEndian4 1, lpExact (ascii "ssh-ed25519"),
    lpExact pub with
  | some lpNone, some lpEmpty, some one, some lpAlgo, some lpPub =>
      match lpExact (lpAlgo ++ lpPub), lpExact block with
      | some lpRecord, some lpBlock =>
          some (ascii "openssh-key-v1" ++ [0] ++ lpNone ++ lpNone ++ lpEmpty ++ one ++ lpRecord ++
            lpBlock)
      | _, _ => none
  | _, _, _, _, _ => none


/-! ## `singleUseSSHCertificate` and `SSHConnect` -/

/-- A Go `error` value: one that comes from outside, one built by
`fmt.Errorf` with a single `%w` verb (text before, wrapped error, text
after), or one built by `errors.Wrap(err, message)`. -/
inductive GoError where
  | external (msg : String)
  | errorf (before : String) (err : GoError) (after : String)
  | wrap (err : GoError) (message : String)
  deriving DecidableEq, Repr

/-- The method `Error()`. -/
def GoError.Error : GoError → String
  | .external msg => msg
  | .errorf before err after => before ++ err.Error ++ after
  | .wrap err message => message ++ ": " ++ err.Error

/-- The struct `api.IssuedCertificate`. -/
structure IssuedCertificate where
  Certificate : List Byte
  Key : List Byte
  deriving DecidableEq, Repr

/-- The arguments of one call of `client.IssueSSHCertificate`; the API client
is the one carried by `ctx`. A nil slice or nil pointer is `none`. -/
structure IssueRequest (Ctx Org : Type) where
  ctx : Ctx
  org : Org
  principals : List String
  appNames : Option (List String)
  validHours : Option Nat
  publicKey : List Byte

/-- The struct `ssh.Client` as `SSHConnect` fills it. -/
structure Client where
  Addr : String
  User : String
  Dial : String
  Certificate : List Byte
  PrivateKey : List Byte
  deriving DecidableEq, Repr

/-- The struct `ssh.Terminal` as `SSHConnect` fills it, without the streams. -/
structure Terminal where
  Mode : String
  deriving DecidableEq, Repr

/-- The struct `SSHParams`, without the streams. -/
structure SSHParams (Ctx Org : Type) where
  Ctx : Ctx
  Org : Org
  App : String
  Dialer : String
  Cmd : String
  Env : List (String × String)
  DisableSpinner : Bool

/-- Everything outside the process: the result of `ed25519.GenerateKey(nil)`,
the certificate authority behind `client.IssueSSHCertificate`, the value of
`rand.Uint32()`, and the SSH client library. -/
structure World (Ctx Org : Type) where
  GenerateKey : List Byte × List Byte × Option GoError
  IssueSSHCertificate : IssueRequest Ctx Org → Option IssuedCertificate × Option GoError
  Uint32 : Nat
  Connect : Client → Option GoError
  Shell : Client → Terminal → String → List (String × String) → Option GoError

/-- One call that the code makes, in the order of execution. -/
inductive Event (Ctx Org : Type) where
  | generateKey
  | issueSSHCertificate (req : IssueRequest Ctx Org)
  | marshalKey (key comment : List Byte)
  | connect (c : Client)
  | shell (c : Client) (term : Terminal) (cmd : String)
  | close (c : Client)

/-- Whether an event is a call of the certificate authority. -/
def Event.isIssue {Ctx Org : Type} : Event Ctx Org → Bool
  | .issueSSHCertificate _ => true
  | _ => false

/-- Whether an event is the encoding of a private key. -/
def Event.isMarshal {Ctx Org : Type} : Event Ctx Org → Bool
  | .marshalKey _ _ => true
  | _ => false

/-- Whether an event is a connection attempt. -/
def Event.isConnect {Ctx Org : Type} : Event Ctx Org → Bool
  | .connect _ => true
  | _ => false

/-- The requests sent to the certificate authority, in order. -/
def issuedRequests {Ctx Org : Type} : List (Event Ctx Org) → List (IssueRequest Ctx Org)
  | [] => []
  | .issueSSHCertificate req :: tl => req :: issuedRequests tl
  | _ :: tl => issuedRequests tl

/-- The three results of `singleUseSSHCertificate`; a nil pointer, nil slice
or nil error is `none`. -/
structure SingleUse where
  cert : Option IssuedCertificate
  key : Option (List Byte)
  err : Option GoError
  deriving DecidableEq, Repr

/-- The function `singleUseSSHCertificate(ctx, org)`: the calls made and the
results returned. -/
def singleUseSSHCertificate {Ctx Org : Type} (world : World Ctx Org) (ctx : Ctx) (org : Org) :
    List (Event Ctx Org) × SingleUse :=
  let hours := 1
  match world.GenerateKey with
  | (_, _, some err) => ([.generateKey], { cert := none, key := none, err := some err })
  | (pub, priv, none) =>
      let req : IssueRequest Ctx Org :=
        { ctx := ctx, org := org, principals := ["root", "fly"], appNames := none,
          validHours := some hours, publicKey := pub }
      match world.IssueSSHCertificate req with
      | (_, some err) =>
          ([.generateKey, .issueSSHCertificate req], { cert := none, key := none, err := some err })
      | (icert, none) =>
          ([.generateKey, .issueSSHCertificate req], { cert := icert, key := some priv, err := none })

/-- Library `net.JoinHostPort`. -/
def JoinHostPort (host port : String) : String :=
  if host.contains ':' then "[" ++ host ++ "]:" ++ port else host ++ ":" ++ port

/-- How a call of `SSHConnect` ends: with a panic, or by returning an error
value (`none` for nil). -/
inductive Outcome where
  | panicked
  | returned (err : Option GoError)
  deriving DecidableEq, Repr

/-- The text after `%w` in the error built at line 101. -/
def establishHint : String :=
  " (if you haven\x27t created a key for your org yet, try \x60flyctl ssh establish\x60)"

/-- The function `SSHConnect(p, addr)`: the calls made and how it ends. The
debug output and the spinner are left out. -/
def SSHConnect {Ctx Org : Type} (world : World Ctx Org) (p : SSHParams Ctx Org) (addr : String) :
    List (Event Ctx Org) × Outcome :=
  match singleUseSSHCertificate world p.Ctx p.Org with
  | (log, { cert := _, key := _, err := some err }) =>
      (log, .returned (some (.errorf "create ssh certificate: " err establishHint)))
  | (log, { cert := cert, key := pk, err := none }) =>
      let log := log ++ [.marshalKey (pk.getD []) (ascii "single-use certificate")]
      match marshalED25519PrivateKey (pk.getD []) (ascii "single-use certificate") world.Uint32 with
      | none => (log, .panicked)
      | some pemkey =>
          match cert with
          | none => (log, .panicked)
          | some cert =>
              let sshClient : Client :=
                { Addr := JoinHostPort addr "22", User := "root", Dial := p.Dialer,
                  Certificate := cert.Certificate, PrivateKey := pemkey }
              match world.Connect sshClient with
              | some err =>
                  (log ++ [.connect sshClient],
                    .returned (some (.wrap err "error connecting to SSH server")))
              | none =>
                  let term : Terminal := { Mode := "xterm" }
                  match world.Shell sshClient term p.Cmd p.Env with
                  | some err =>
                      (log ++ [.connect sshClient, .shell sshClient term p.Cmd, .close sshClient],
                        .returned (some (.wrap err "ssh shell")))
                  | none =>
                      (log ++ [.connect sshClient, .shell sshClient term p.Cmd, .close sshClient],
                        .returned none)

/-- An error value used in the examples. -/
def sampleError : GoError := .external "boom"

/-- A world in which key generation and issuance succeed: the authority
answers with a certificate that repeats the submitted public key. -/
def worldOk : World Nat Nat :=
  { GenerateKey := (List.replicate 32 0, List.replicate 64 0, none)
    IssueSSHCertificate := fun req => (some { Certificate := req.publicKey, Key := [] }, none)
    Uint32 := 7
    Connect := fun _ => none
    Shell := fun _ _ _ _ => none }

/-- A world in which key generation fails with `sampleError`. -/
def worldGenFails : World Nat Nat :=
  { worldOk with GenerateKey := ([], [], some sampleError) }

/-- A world in which the certificate authority fails with `sampleError`. -/
def worldIssueFails : World Nat Nat :=
  { worldOk with IssueSSHCertificate := fun _ => (none, some sampleError) }

/-- Parameters used in the examples. -/
def sampleParams : SSHParams Nat Nat :=
  { Ctx := 1, Org := 2, App := "app", Dialer := "dialer", Cmd := "uptime", Env := [],
    DisableSpinner := true }

/-- A comment of `2 ^ 32` bytes `a`. -/
@[irreducible] def longComment : List Byte := List.replicate (2 ^ 32) 97

/-- An Ed25519 private key: the seed of 32 zero bytes followed by its public
key `3b6a27bc ceb6a42d 62a3a8d0 2a6f0d73 65321577 1de243a6 3ac048a1 8b59da29`. -/
def zeroSeedKey : List Byte :=
  List.replicate 32 0 ++
    [0x3b, 0x6a, 0x27, 0xbc, 0xce, 0xb6, 0xa4, 0x2d, 0x62, 0xa3, 0xa8, 0xd0, 0x2a, 0x6f, 0x0d,
      0x73, 0x65, 0x32, 0x15, 0x77, 0x1d, 0xe2, 0x43, 0xa6, 0x3a, 0xc0, 0x48, 0xa1, 0x8b, 0x59,
      0xda, 0x29]

/-! ## The text envelope can be removed again -/

theorem byte_val (b : Byte) : byte b.val = b := by
  apply Fin.ext
  simp [byte, Fin.ofNat]

set_option maxRecDepth 100000 in
theorem decSextet_encSextet : ∀ v, v < 64 → decSextet (encSextet v) = some v := by
  decide

set_option maxRecDepth 100000 in
theorem encSextet_ne_pad : ∀ v, v < 64 → encSextet v ≠ StdPadding := by
  decide

set_option maxRecDepth 100000 in
theorem encSextet_ne_lf : ∀ v, v < 64 → encSextet v ≠ 10 := by
  decide

theorem base64_roundtrip (l : List Byte) : base64Decode (base64Encode l) = some l := by
  induction l using base64Encode.induct with
  | case1 a b c tl ih =>
    have ha := a.isLt
    have hb := b.isLt
    have hc := c.isLt
    simp only [base64Encode, base64Decode]
    rw [decSextet_encSextet _ (by omega), decSextet_encSextet _ (by omega),
      decSextet_encSextet _ (by omega), decSextet_encSextet _ (by omega), ih]
    simp only [if_neg (encSextet_ne_pad _ (show c.val % 64 < 64 by omega))]
    have e1 : a.val / 4 * 4 + (a.val % 4 * 16 + b.val / 16) / 16 = a.val := by omega
    have e2 : (a.val % 4 * 16 + b.val / 16) % 16 * 16 + (b.val % 16 * 4 + c.val / 64) / 4
        = b.val := by omega
    have e3 : (b.val % 16 * 4 + c.val / 64) % 4 * 64 + c.val % 64 = c.val := by omega
    rw [e1, e2, e3, byte_val, byte_val, byte_val]
  | case2 a b =>
    have ha := a.isLt
    have hb := b.isLt
    simp only [base64Encode, base64Decode]
    rw [decSextet_encSextet _ (by omega), decSextet_encSextet _ (by omega)]
    simp only [if_true, if_neg (encSextet_ne_pad _ (show b.val % 16 * 4 < 64 by omega))]
    rw [decSextet_encSextet _ (by omega)]
    have e1 : a.val / 4 * 4 + (a.val % 4 * 16 + b.val / 16) / 16 = a.val := by omega
    have e2 : (a.val % 4 * 16 + b.val / 16) % 16 * 16 + (b.val % 16 * 4) / 4 = b.val := by omega
    simp only [e1, e2, byte_val]
  | case3 a =>
    have ha := a.isLt
    simp only [base64Encode, base64Decode]
    rw [decSextet_encSextet _ (by omega), decSextet_encSextet _ (by omega)]
    have e1 : a.val / 4 * 4 + (a.val % 4 * 16) / 16 = a.val := by omega
    simp only [if_true, e1, byte_val]
  | case4 => rfl

theorem base64Encode_ne_lf (l : List Byte) : ∀ ch ∈ base64Encode l, ch ≠ 10 := by
  induction l using base64Encode.induct with
  | case1 a b c tl ih =>
    have ha := a.isLt
    have hb := b.isLt
    have hc := c.isLt
    intro ch hch
    simp only [base64Encode, List.mem_cons] at hch
    rcases hch with h | h | h | h | h
    · rw [h]; exact encSextet_ne_lf _ (by omega)
    · rw [h]; exact encSextet_ne_lf _ (by omega)
    · rw [h]; exact encSextet_ne_lf _ (by omega)
    · rw [h]; exact encSextet_ne_lf _ (by omega)
    · exact ih ch h
  | case2 a b =>
    have ha := a.isLt
    have hb := b.isLt
    intro ch hch
    simp only [base64Encode, List.mem_cons, List.not_mem_nil, or_false] at hch
    rcases hch with h | h | h | h
    · rw [h]; exact encSextet_ne_lf _ (by omega)
    · rw [h]; exact encSextet_ne_lf _ (by omega)
    · rw [h]; exact encSextet_ne_lf _ (by omega)
    · rw [h]; decide
  | case3 a =>
    have ha := a.isLt
    intro ch hch
    simp only [base64Encode, List.mem_cons, List.not_mem_nil, or_false] at hch
    rcases hch with h | h | h | h
    · rw [h]; exact encSextet_ne_lf _ (by omega)
    · rw [h]; exact encSextet_ne_lf _ (by omega)
    · rw [h]; decide
    · rw [h]; decide
  | case4 => intro ch hch; simp [base64Encode] at hch

theorem lineBreaker_filter (l : List Byte) (h : ∀ ch ∈ l, ch ≠ 10) :
    ∀ used, (lineBreaker used l).filter (fun ch => ch ≠ 10) = l := by
  induction l with
  | nil =>
    intro used
    by_cases hu : used = 0 <;> simp [lineBreaker, hu]
  | cons ch tl ih =>
    intro used
    have hch : ch ≠ 10 := h ch (List.mem_cons_self _ _)
    have htl : ∀ x ∈ tl, x ≠ 10 := fun x hx => h x (List.mem_cons_of_mem _ hx)
    by_cases hu : used + 1 = pemLineLength
    · rw [lineBreaker, if_pos hu, List.filter_cons_of_pos (by simpa using hch),
        List.filter_cons_of_neg (by simp), ih htl]
    · rw [lineBreaker, if_neg hu, List.filter_cons_of_pos (by simpa using hch), ih htl]

theorem dropLeading_append (p x : List Byte) : dropLeading p (p ++ x) = some x := by
  simp [dropLeading]

theorem dropTrailing_append (x s : List Byte) : dropTrailing s (x ++ s) = some x := by
  simp [dropTrailing]

theorem pemDecode_EncodeToMemory (label data : List Byte) :
    pemDecode label (EncodeToMemory { Typ := label, Bytes := data }) = some data := by
  have e : EncodeToMemory { Typ := label, Bytes := data } =
      (ascii "-----BEGIN " ++ label ++ ascii "-----\n") ++
        (lineBreaker 0 (base64Encode data) ++ (ascii "-----END " ++ label ++ ascii "-----\n")) := by
    simp [EncodeToMemory]
  rw [e]
  unfold pemDecode
  rw [dropLeading_append]
  simp only []
  rw [dropTrailing_append]
  simp only []
  rw [lineBreaker_filter _ (base64Encode_ne_lf data), base64_roundtrip]

/-! ## What `ssh.Marshal` writes for `pk1` and `w` -/

theorem appendU32_eq (buf : List Byte) (n : Nat) : appendU32 buf (n % 2 ^ 32) = buf ++ be32 n := by
  simp [appendU32, be32]

theorem appendInt_eq (buf x : List Byte) : appendInt buf x.length ++ x = buf ++ lp x := by
  simp [appendInt, appendU32, lp]

theorem Marshal_pk1 (p : Pk1) :
    Marshal p.fields = be32 p.Check1 ++ be32 p.Check2 ++ lp p.Keytype ++ lp p.Pub ++ lp p.Priv ++
      lp p.Comment ++ p.Pad := by
  simp only [Marshal, marshalStruct, Pk1.fields, List.foldl, marshalField, appendU32_eq,
    appendInt_eq, List.nil_append]

theorem Marshal_w (w : W) :
    Marshal w.fields = lp w.CipherName ++ lp w.KdfName ++ lp w.KdfOpts ++ be32 w.NumKeys ++
      lp w.PubKey ++ lp w.PrivKeyBlock := by
  simp only [Marshal, marshalStruct, W.fields, List.foldl, marshalField, appendU32_eq,
    appendInt_eq, List.nil_append]

theorem pubKeyHead_eq (pubKey : List Byte) (h : pubKey.length = 32) :
    ([] ++ pubKeyHead) ++ pubKey = lp (ascii "ssh-ed25519") ++ lp pubKey := by
  have e1 : ([] ++ pubKeyHead : List Byte) = lp (ascii "ssh-ed25519") ++ [0, 0, 0, 32] := by
    decide
  have e2 : lp pubKey = [0, 0, 0, 32] ++ pubKey := by
    simp only [lp, h]
    rfl
  rw [e1, e2, List.append_assoc]

theorem Public_of_length (key : List Byte) (h : key.length = 64) :
    Public key = some (key.drop 32) := by
  simp [Public, h, copyInto, PublicKeySize, List.take_of_length_le]

theorem Public_isSome (key : List Byte) (h : 32 ≤ key.length) :
    ∃ pubKey, Public key = some pubKey ∧ pubKey.length = 32 := by
  refine ⟨_, if_neg (by omega), ?_⟩
  simp [copyInto, PublicKeySize]
  omega

/-! ## The reader on what the writer produces -/

theorem byte_val_eq (n : Nat) : (byte n).val = n % 256 := by
  simp [byte, Fin.ofNat]

theorem readU32_be32 (n : Nat) (tl : List Byte) :
    readU32 (be32 n ++ tl) = some (n % 2 ^ 32, tl) := by
  simp only [be32, readU32, List.cons_append, List.nil_append, byte_val_eq, Option.some.injEq,
    Prod.mk.injEq, and_true]
  omega

theorem readString_lp (x tl : List Byte) (h : x.length < 2 ^ 32) :
    readString (lp x ++ tl) = some (x, tl) := by
  have e : lp x = be32 x.length ++ x := rfl
  rw [readString, e, List.append_assoc, readU32_be32, Nat.mod_eq_of_lt h]
  simp

theorem readCString_lp (x tl : List Byte) (h : x.length < 2 ^ 32) (hz : (0 : Byte) ∉ x) :
    readCString (lp x ++ tl) = some (x, tl) := by
  have h1 : (0 : Byte) ∉ x.dropLast := fun hm => hz (List.mem_of_mem_dropLast hm)
  have h2 : x.getLast? ≠ some 0 := fun hl => hz (List.mem_of_getLast?_eq_some hl)
  rw [readCString, readString_lp x tl h]
  simp only []
  rw [if_neg h1, if_neg h2]

theorem length_lp (x : List Byte) : (lp x).length = 4 + x.length := by
  simp [lp]; omega

theorem length_be32 (n : Nat) : (be32 n).length = 4 := rfl

theorem length_padBytes (n : Nat) : (padBytes n).length = n := by
  simp [padBytes]


theorem length_KeyAlgoED25519 : KeyAlgoED25519.length = 11 := by decide

theorem KeyAlgoED25519_eq : KeyAlgoED25519 = ascii "ssh-ed25519" := rfl

theorem readPrivKeyBlock_layout (ci n : Nat) (pub priv comment : List Byte)
    (hpub : pub.length = 32) (hpriv : priv.length = 64) (hpp : priv.drop 32 = pub)
    (hc : comment.length < 2 ^ 32) (hz : (0 : Byte) ∉ comment) (hn : n < 8)
    (hlen : (131 + comment.length + n) % 8 = 0) :
    readPrivKeyBlock (be32 ci ++ be32 ci ++ lp KeyAlgoED25519 ++ lp pub ++ lp priv ++ lp comment ++
      padBytes n) = some { Pub := pub, Priv := priv, Comment := comment } := by
  have hl : (be32 ci ++ be32 ci ++ lp KeyAlgoED25519 ++ lp pub ++ lp priv ++ lp comment ++
      padBytes n).length = 131 + comment.length + n := by
    simp only [List.length_append, length_be32, length_lp, length_padBytes,
      length_KeyAlgoED25519, hpub, hpriv]
    omega
  unfold readPrivKeyBlock
  rw [hl]
  simp only [List.append_assoc]
  rw [readU32_be32]
  simp only []
  rw [readU32_be32]
  simp only []
  rw [readString_lp _ _ (by rw [length_KeyAlgoED25519]; norm_num)]
  simp only []
  rw [readString_lp _ _ (by rw [hpub]; norm_num)]
  simp only []
  rw [readString_lp _ _ (by rw [hpriv]; norm_num)]
  simp only []
  rw [readCString_lp _ _ hc hz]
  simp only [length_padBytes]
  rw [if_pos ⟨hlen, trivial, KeyAlgoED25519_eq, hpub, hpriv, hpp, hn, trivial⟩]

theorem blockLen_pk1Init (key comment : List Byte) (ci : Nat) (pubKey : List Byte) :
    blockLen (pk1Init key comment ci pubKey) =
      4 + 4 + (4 + 11) + (4 + pubKey.length) + (4 + key.length) + (4 + comment.length) := by
  simp only [blockLen, Marshal_pk1, pk1Init, List.length_append, length_be32, length_lp,
    length_KeyAlgoED25519, List.length_nil]
  omega

theorem padLen_le (pk1 : Pk1) : padLen pk1 ≤ 7 := by
  simp only [padLen]
  omega

theorem padLen_aligned (pk1 : Pk1) : (blockLen pk1 + padLen pk1) % 8 = 0 := by
  simp only [padLen]
  omega

theorem Marshal_pk1Padded (pk1 : Pk1) (h : pk1.Pad = []) :
    Marshal (pk1Padded pk1).fields = Marshal pk1.fields ++ padBytes (padLen pk1) := by
  rw [Marshal_pk1, Marshal_pk1, h]
  simp [pk1Padded, padBytes]

theorem readPubKeyRecord_layout (pub : List Byte) (hpub : pub.length = 32) :
    readPubKeyRecord (lp (ascii "ssh-ed25519") ++ lp pub) = some pub := by
  unfold readPubKeyRecord
  rw [readString_lp _ _ (by decide)]
  simp only []
  have e : lp pub = lp pub ++ [] := by simp
  rw [e, readString_lp _ _ (by rw [hpub]; norm_num)]
  simp [hpub]


theorem marshal_eq (key comment : List Byte) (ci : Nat) (pubKey : List Byte)
    (hP : Public key = some pubKey) :
    marshalED25519PrivateKey key comment ci =
      some (EncodeToMemory
        ⟨pemLabel, containerOf (wOf pubKey (pk1Padded (pk1Init key comment ci pubKey)))⟩) := by
  simp [marshalED25519PrivateKey, hP, pemLabel]

theorem containerOf_layout (pubKey : List Byte) (pk1 : Pk1) (h : pubKey.length = 32) :
    containerOf (wOf pubKey pk1) = outerLayout pubKey (Marshal pk1.fields) := by
  rw [containerOf, Marshal_w]
  simp only [wOf, pubKeyHead_eq pubKey h, outerLayout, List.append_assoc]

theorem marshal_layout (key comment : List Byte) (ci : Nat) (pubKey : List Byte)
    (hP : Public key = some pubKey) (hlen : pubKey.length = 32) :
    marshalED25519PrivateKey key comment ci =
      some (EncodeToMemory ⟨pemLabel, outerLayout pubKey
        (wOf pubKey (pk1Padded (pk1Init key comment ci pubKey))).PrivKeyBlock⟩) := by
  rw [marshal_eq key comment ci pubKey hP, containerOf_layout _ _ hlen]
  rfl

theorem readOpenSSHKeyV1_layout (pub block : List Byte) (parsed : ParsedKey)
    (hpub : pub.length = 32) (hlen : block.length < 2 ^ 32)
    (hb : readPrivKeyBlock block = some parsed) (hp : parsed.Pub = pub) :
    readOpenSSHKeyV1 (outerLayout pub block) = some parsed := by
  unfold readOpenSSHKeyV1 outerLayout
  simp only [List.append_assoc]
  rw [← List.append_assoc (ascii "openssh-key-v1") [0], dropLeading_append]
  simp only []
  rw [readString_lp _ _ (by decide)]
  simp only []
  rw [readString_lp _ _ (by decide)]
  simp only []
  rw [readString_lp _ _ (by decide)]
  simp only []
  rw [readU32_be32]
  simp only []
  rw [readString_lp _ _ (by simp only [List.length_append, length_lp, hpub]; decide)]
  simp only []
  have e : lp block = lp block ++ [] := by simp
  rw [e, readString_lp _ _ hlen]
  simp only []
  rw [if_pos ⟨trivial, trivial, rfl, by norm_num, trivial⟩, readPubKeyRecord_layout _ hpub, hb]
  simp only [hp, if_true]

theorem readPrivateKey_marshal (k c : List Byte) (r : Nat) (hk : k.length = 64)
    (hc : c.length + 139 ≤ 2 ^ 32) (hz : (0 : Byte) ∉ c) :
    (marshalED25519PrivateKey k c r).bind readPrivateKey =
      some { Pub := k.drop 32, Priv := k, Comment := c } := by
  have hpub : (k.drop 32).length = 32 := by simp [hk]
  rw [marshal_eq k c r _ (Public_of_length k hk), Option.some_bind, readPrivateKey,
    pemDecode_EncodeToMemory]
  simp only []
  rw [containerOf_layout _ _ hpub, Marshal_pk1Padded _ rfl]
  have hbl := blockLen_pk1Init k c r (k.drop 32)
  rw [hpub, hk] at hbl
  have hle := padLen_le (pk1Init k c r (k.drop 32))
  have hal := padLen_aligned (pk1Init k c r (k.drop 32))
  rw [hbl] at hal
  generalize padLen (pk1Init k c r (k.drop 32)) = n at hle hal ⊢
  have hblock : readPrivKeyBlock (Marshal (pk1Init k c r (k.drop 32)).fields ++ padBytes n) =
      some { Pub := k.drop 32, Priv := k, Comment := c } := by
    rw [Marshal_pk1]
    simp only [pk1Init, List.append_nil]
    apply readPrivKeyBlock_layout _ _ _ _ _ hpub hk rfl _ hz
    · omega
    · omega
    · omega
  apply readOpenSSHKeyV1_layout _ _ _ hpub _ hblock rfl
  rw [List.length_append, length_padBytes]
  have hB : (Marshal (pk1Init k c r (k.drop 32)).fields).length =
      blockLen (pk1Init k c r (k.drop 32)) := rfl
  rw [hB, hbl]
  omega


theorem readString_lp_long (x : List Byte) (h : 2 ^ 32 ≤ x.length) :
    ∃ y r, readString (lp x ++ []) = some (y, r) ∧ r ≠ [] := by
  have e : lp x = be32 x.length ++ x := rfl
  have hlt : x.length % 2 ^ 32 < 2 ^ 32 := Nat.mod_lt _ (by norm_num)
  refine ⟨x.take (x.length % 2 ^ 32), x.drop (x.length % 2 ^ 32), ?_, ?_⟩
  · rw [readString, List.append_nil, e, readU32_be32]
    simp only []
    rw [if_pos (by omega)]
  · intro h0
    have := congrArg List.length h0
    simp only [List.length_drop, List.length_nil] at this
    omega

theorem readOpenSSHKeyV1_long (pub block : List Byte) (hpub : pub.length = 32)
    (hlen : 2 ^ 32 ≤ block.length) : readOpenSSHKeyV1 (outerLayout pub block) = none := by
  obtain ⟨y, r, hy, hr⟩ := readString_lp_long block hlen
  unfold readOpenSSHKeyV1 outerLayout
  simp only [List.append_assoc]
  rw [← List.append_assoc (ascii "openssh-key-v1") [0], dropLeading_append]
  simp only []
  rw [readString_lp _ _ (by decide)]
  simp only []
  rw [readString_lp _ _ (by decide)]
  simp only []
  rw [readString_lp _ _ (by decide)]
  simp only []
  rw [readU32_be32]
  simp only []
  rw [readString_lp _ _ (by simp only [List.length_append, length_lp, hpub]; decide)]
  simp only []
  have e : lp block = lp block ++ [] := by simp
  rw [e, hy]
  simp only []
  rw [if_neg (fun h => hr h.2.2.2.2)]

theorem readPrivateKey_marshal_long (k c : List Byte) (r : Nat) (hk : k.length = 64)
    (hc : 2 ^ 32 < c.length + 139) :
    (marshalED25519PrivateKey k c r).bind readPrivateKey = none := by
  have hpub : (k.drop 32).length = 32 := by simp [hk]
  rw [marshal_eq k c r _ (Public_of_length k hk), Option.some_bind, readPrivateKey,
    pemDecode_EncodeToMemory]
  simp only []
  rw [containerOf_layout _ _ hpub, Marshal_pk1Padded _ rfl]
  have hbl := blockLen_pk1Init k c r (k.drop 32)
  rw [hpub, hk] at hbl
  have hal := padLen_aligned (pk1Init k c r (k.drop 32))
  rw [hbl] at hal
  apply readOpenSSHKeyV1_long _ _ hpub
  rw [List.length_append, length_padBytes]
  have hB : (Marshal (pk1Init k c r (k.drop 32)).fields).length =
      blockLen (pk1Init k c r (k.drop 32)) := rfl
  rw [hB, hbl]
  omega

theorem length_longComment : longComment.length = 2 ^ 32 := by
  unfold longComment
  exact List.length_replicate _ _


/-! ## The branches of `singleUseSSHCertificate` and `SSHConnect` -/

theorem singleUse_genError {Ctx Org : Type} (world : World Ctx Org) (ctx : Ctx) (org : Org)
    (pub priv : List Byte) (err : GoError) (hg : world.GenerateKey = (pub, priv, some err)) :
    singleUseSSHCertificate world ctx org =
      ([.generateKey], { cert := none, key := none, err := some err }) := by
  simp [singleUseSSHCertificate, hg]

theorem singleUse_issueError {Ctx Org : Type} (world : World Ctx Org) (ctx : Ctx) (org : Org)
    (pub priv : List Byte) (icert : Option IssuedCertificate) (err : GoError)
    (hg : world.GenerateKey = (pub, priv, none))
    (hi : world.IssueSSHCertificate ⟨ctx, org, ["root", "fly"], none, some 1, pub⟩ =
      (icert, some err)) :
    singleUseSSHCertificate world ctx org =
      ([.generateKey, .issueSSHCertificate ⟨ctx, org, ["root", "fly"], none, some 1, pub⟩],
        { cert := none, key := none, err := some err }) := by
  simp [singleUseSSHCertificate, hg, hi]

theorem singleUse_ok {Ctx Org : Type} (world : World Ctx Org) (ctx : Ctx) (org : Org)
    (pub priv : List Byte) (icert : Option IssuedCertificate)
    (hg : world.GenerateKey = (pub, priv, none))
    (hi : world.IssueSSHCertificate ⟨ctx, org, ["root", "fly"], none, some 1, pub⟩ =
      (icert, none)) :
    singleUseSSHCertificate world ctx org =
      ([.generateKey, .issueSSHCertificate ⟨ctx, org, ["root", "fly"], none, some 1, pub⟩],
        { cert := icert, key := some priv, err := none }) := by
  simp [singleUseSSHCertificate, hg, hi]

theorem SSHConnect_of_error {Ctx Org : Type} (world : World Ctx Org) (p : SSHParams Ctx Org)
    (addr : String) (log : List (Event Ctx Org)) (cert : Option IssuedCertificate)
    (key : Option (List Byte)) (err : GoError)
    (h : singleUseSSHCertificate world p.Ctx p.Org = (log, { cert := cert, key := key, err := some err })) :
    SSHConnect world p addr =
      (log, .returned (some (.errorf "create ssh certificate: " err establishHint))) := by
  simp [SSHConnect, h]

theorem SSHConnect_connect_event {Ctx Org : Type} (world : World Ctx Org) (p : SSHParams Ctx Org)
    (addr : String) (log : List (Event Ctx Org)) (cert : Option IssuedCertificate)
    (priv : List Byte)
    (h : singleUseSSHCertificate world p.Ctx p.Org =
      (log, { cert := cert, key := some priv, err := none }))
    (hlog : ∀ ev ∈ log, ev.isConnect = false) (c : Client)
    (hc : Event.connect c ∈ (SSHConnect world p addr).1) :
    ∃ icert, cert = some icert ∧ c.Certificate = icert.Certificate ∧
      marshalED25519PrivateKey priv (ascii "single-use certificate") world.Uint32 =
        some c.PrivateKey := by
  unfold SSHConnect at hc
  rw [h] at hc
  simp only [Option.getD_some] at hc
  have hno : ∀ l : List (Event Ctx Org), (∀ ev ∈ l, ev.isConnect = false) →
      Event.connect c ∉ l := fun l hl hmem => by
    have := hl _ hmem
    simp [Event.isConnect] at this
  have hno2 : Event.connect c ∉
      log ++ [Event.marshalKey priv (ascii "single-use certificate")] := by
    apply hno
    intro ev hev
    rcases List.mem_append.1 hev with h1 | h1
    · exact hlog ev h1
    · simp only [List.mem_cons, List.not_mem_nil, or_false] at h1
      rw [h1]; rfl
  cases hm : marshalED25519PrivateKey priv (ascii "single-use certificate") world.Uint32 with
  | none =>
    rw [hm] at hc
    exact absurd hc hno2
  | some pemkey =>
    rw [hm] at hc
    cases cert with
    | none => exact absurd hc hno2
    | some icert =>
      refine ⟨icert, rfl, ?_⟩
      simp only [] at hc
      have hcc : c =
          { Addr := JoinHostPort addr "22", User := "root", Dial := p.Dialer,
            Certificate := icert.Certificate, PrivateKey := pemkey } := by
        split at hc
        · rcases List.mem_append.1 hc with h1 | h1
          · exact absurd h1 hno2
          · simpa using h1
        · split at hc
          · rcases List.mem_append.1 hc with h1 | h1
            · exact absurd h1 hno2
            · simpa using h1
          · rcases List.mem_append.1 hc with h1 | h1
            · exact absurd h1 hno2
            · simpa using h1
      rw [hcc]
      exact ⟨rfl, rfl⟩

/-! ## The layout with exact length prefixes -/

theorem lpExact_eq (x : List Byte) (h : x.length < 2 ^ 32) : lpExact x = some (lp x) := by
  simp only [lpExact, bigEndian4, if_pos h, lp, Nat.mod_eq_of_lt h]

theorem lpExact_long (x : List Byte) (h : 2 ^ 32 ≤ x.length) : lpExact x = none := by
  simp only [lpExact, bigEndian4, if_neg (Nat.not_lt.2 h)]

theorem layoutExact_eq (pub block : List Byte) (hpub : pub.length = 32)
    (hb : block.length < 2 ^ 32) : layoutExact pub block = some (outerLayout pub block) := by
  have h1 : lpExact (lp (ascii "ssh-ed25519") ++ lp pub) =
      some (lp (lp (ascii "ssh-ed25519") ++ lp pub)) :=
    lpExact_eq _ (by simp only [List.length_append, length_lp, hpub]; decide)
  unfold layoutExact
  rw [lpExact_eq (ascii "none") (by decide), lpExact_eq (ascii "") (by decide),
    lpExact_eq (ascii "ssh-ed25519") (by decide), lpExact_eq pub (by rw [hpub]; decide)]
  have h2 : bigEndian4 1 = some (be32 1) := by decide
  simp only [h1, h2, lpExact_eq block hb]
  rfl

theorem layoutExact_long (pub block : List Byte) (hb : 2 ^ 32 ≤ block.length) :
    layoutExact pub block = none := by
  unfold layoutExact
  rw [lpExact_long block hb]
  split
  · split <;> simp_all
  · rfl

theorem length_zeroSeedKey : zeroSeedKey.length = 64 := by decide

theorem length_privKeyBlock (key comment : List Byte) (ci : Nat) (pubKey : List Byte) :
    (wOf pubKey (pk1Padded (pk1Init key comment ci pubKey))).PrivKeyBlock.length =
      blockLen (pk1Init key comment ci pubKey) + padLen (pk1Init key comment ci pubKey) := by
  show (Marshal (pk1Padded (pk1Init key comment ci pubKey)).fields).length = _
  rw [Marshal_pk1Padded _ rfl, List.length_append, length_padBytes]
  rfl

theorem padLen_eq (pk1 : Pk1) : padLen pk1 = (8 - blockLen pk1 % 8) % 8 := rfl

theorem length_block_longComment :
    (wOf (zeroSeedKey.drop 32)
      (pk1Padded (pk1Init zeroSeedKey longComment 0 (zeroSeedKey.drop 32)))).PrivKeyBlock.length =
      2 ^ 32 + 136 := by
  have hpub : (zeroSeedKey.drop 32).length = 32 := by decide
  have hbl := blockLen_pk1Init zeroSeedKey longComment 0 (zeroSeedKey.drop 32)
  rw [hpub, length_zeroSeedKey, length_longComment] at hbl
  rw [length_privKeyBlock, padLen_eq, hbl]
  norm_num

/-! ## The encoder: claims about `marshalED25519PrivateKey` -/

/-- C1 (as amended). For every 64-byte private key `k`, every comment `c` that
holds no zero byte and has at most `2 ^ 32 - 139` bytes, and every check
integer `r`, the encoder returns an envelope, and the reader accepts it and
returns the public key `k[32:64]`, the private key `k` and the comment `c`. -/
theorem marshal_roundtrip (k c : List Byte) (r : Nat) (hk : k.length = 64)
    (hc : c.length + 139 ≤ 2 ^ 32) (hz : (0 : Byte) ∉ c) :
    ∃ out, marshalED25519PrivateKey k c r = some out ∧
      readPrivateKey out = some { Pub := k.drop 32, Priv := k, Comment := c } := by
  have h := readPrivateKey_marshal k c r hk hc hz
  cases hm : marshalED25519PrivateKey k c r with
  | none => rw [hm] at h; exact absurd h (by simp)
  | some out => rw [hm] at h; exact ⟨out, rfl, h⟩

/-- Witness for C1 (as amended): the key of the zero seed with the comment
`test` and check integer 7. -/
theorem marshal_roundtrip_witness :
    zeroSeedKey.length = 64 ∧ (ascii "test").length + 139 ≤ 2 ^ 32 ∧
      (0 : Byte) ∉ ascii "test" ∧
      ∃ out, marshalED25519PrivateKey zeroSeedKey (ascii "test") 7 = some out ∧
        readPrivateKey out =
          some { Pub := zeroSeedKey.drop 32, Priv := zeroSeedKey, Comment := ascii "test" } :=
  ⟨by decide, by decide, by decide,
    marshal_roundtrip zeroSeedKey (ascii "test") 7 (by decide) (by decide) (by decide)⟩

set_option maxRecDepth 1000000 in
/-- C1 (as stated) fails, for the key of the zero seed and check integer 0.
With the comment `61 00 62` the reader rejects the envelope; with the comment
`61 00` the reader returns the comment `61`; with a comment of `2 ^ 32` bytes
`61` the reader rejects the envelope. In none of the three cases does the
reader return the comment that was encoded. -/
theorem marshal_roundtrip_fails :
    zeroSeedKey.length = 64 ∧
    (marshalED25519PrivateKey zeroSeedKey [0x61, 0x00, 0x62] 0).bind readPrivateKey = none ∧
    (marshalED25519PrivateKey zeroSeedKey [0x61, 0x00] 0).bind readPrivateKey =
      some { Pub := zeroSeedKey.drop 32, Priv := zeroSeedKey, Comment := [0x61] } ∧
    (marshalED25519PrivateKey zeroSeedKey longComment 0).bind readPrivateKey = none ∧
    (¬ ∃ out, marshalED25519PrivateKey zeroSeedKey [0x61, 0x00, 0x62] 0 = some out ∧
      readPrivateKey out =
        some { Pub := zeroSeedKey.drop 32, Priv := zeroSeedKey, Comment := [0x61, 0x00, 0x62] }) ∧
    (¬ ∃ out, marshalED25519PrivateKey zeroSeedKey [0x61, 0x00] 0 = some out ∧
      readPrivateKey out =
        some { Pub := zeroSeedKey.drop 32, Priv := zeroSeedKey, Comment := [0x61, 0x00] }) ∧
    ¬ ∃ out, marshalED25519PrivateKey zeroSeedKey longComment 0 = some out ∧
      readPrivateKey out =
        some { Pub := zeroSeedKey.drop 32, Priv := zeroSeedKey, Comment := longComment } := by
  have h1 : (marshalED25519PrivateKey zeroSeedKey [0x61, 0x00, 0x62] 0).bind readPrivateKey =
      none := by decide
  have h2 : (marshalED25519PrivateKey zeroSeedKey [0x61, 0x00] 0).bind readPrivateKey =
      some { Pub := zeroSeedKey.drop 32, Priv := zeroSeedKey, Comment := [0x61] } := by decide
  have h3 : (marshalED25519PrivateKey zeroSeedKey longComment 0).bind readPrivateKey = none :=
    readPrivateKey_marshal_long _ _ 0 length_zeroSeedKey (by rw [length_longComment]; omega)
  refine ⟨length_zeroSeedKey, h1, h2, h3, ?_, ?_, ?_⟩
  · rintro ⟨out, hout, hread⟩
    rw [hout, Option.some_bind, hread] at h1
    exact Option.noConfusion h1
  · rintro ⟨out, hout, hread⟩
    rw [hout, Option.some_bind, hread] at h2
    have h4 := congrArg (fun o => o.map (fun q => q.Comment.length)) h2
    exact absurd h4 (by decide)
  · rintro ⟨out, hout, hread⟩
    rw [hout, Option.some_bind, hread] at h3
    exact Option.noConfusion h3

/-- C2 (as amended). For every 64-byte private key `k`, every comment `c` of at
most `2 ^ 32 - 139` bytes and every check integer `r`, the encoder returns the
envelope of exactly these bytes: the 15 bytes `openssh-key-v1` and `0x00`,
then `lp "none"`, `lp "none"`, `lp ""`, the 4-byte big-endian integer 1,
`lp (lp "ssh-ed25519" ++ lp pub)` and `lp privKeyBlock`, with nothing after,
where `pub = k[32:64]` and `lp x` is the 4-byte big-endian length of `x`
followed by `x`; removing the envelope gives these bytes back; and the
hand-built head `00 00 00 0b "ssh-ed25519" 00 00 00 20` followed by `pub` is
`lp "ssh-ed25519" ++ lp pub`. -/
theorem outer_layout_exact (k c : List Byte) (r : Nat) (hk : k.length = 64)
    (hc : c.length + 139 ≤ 2 ^ 32) :
    ∃ out privKeyBlock layout lpAlgo lpPub,
      marshalED25519PrivateKey k c r = some out ∧
      privKeyBlock = (wOf (k.drop 32) (pk1Padded (pk1Init k c r (k.drop 32)))).PrivKeyBlock ∧
      layoutExact (k.drop 32) privKeyBlock = some layout ∧
      out = EncodeToMemory ⟨ascii "OPENSSH PRIVATE KEY", layout⟩ ∧
      pemDecode (ascii "OPENSSH PRIVATE KEY") out = some layout ∧
      (ascii "openssh-key-v1" ++ [0]).length = 15 ∧
      pubKeyHead = [0x00, 0x00, 0x00, 0x0b] ++ ascii "ssh-ed25519" ++ [0x00, 0x00, 0x00, 0x20] ∧
      lpExact (ascii "ssh-ed25519") = some lpAlgo ∧
      lpExact (k.drop 32) = some lpPub ∧
      pubKeyHead ++ k.drop 32 = lpAlgo ++ lpPub := by
  have hpub : (k.drop 32).length = 32 := by simp [hk]
  have hbl := blockLen_pk1Init k c r (k.drop 32)
  rw [hpub, hk] at hbl
  have hle := padLen_le (pk1Init k c r (k.drop 32))
  have hal := padLen_aligned (pk1Init k c r (k.drop 32))
  have hlen : (wOf (k.drop 32) (pk1Padded (pk1Init k c r (k.drop 32)))).PrivKeyBlock.length <
      2 ^ 32 := by
    rw [length_privKeyBlock, hbl]
    rw [hbl] at hal
    omega
  have hm := marshal_layout k c r _ (Public_of_length k hk) hpub
  refine ⟨_, _, _, _, _, hm, rfl, layoutExact_eq _ _ hpub hlen, rfl,
    pemDecode_EncodeToMemory _ _, by decide, rfl, lpExact_eq _ (by decide),
    lpExact_eq _ (by rw [hpub]; decide), ?_⟩
  have := pubKeyHead_eq _ hpub
  rwa [List.nil_append] at this

/-- Witness for C2 (as amended): the key of the zero seed with the comment
`test` and check integer 7. -/
theorem outer_layout_exact_witness :
    zeroSeedKey.length = 64 ∧ (ascii "test").length + 139 ≤ 2 ^ 32 ∧
    ∃ out privKeyBlock layout,
      marshalED25519PrivateKey zeroSeedKey (ascii "test") 7 = some out ∧
      privKeyBlock = (wOf (zeroSeedKey.drop 32)
        (pk1Padded (pk1Init zeroSeedKey (ascii "test") 7 (zeroSeedKey.drop 32)))).PrivKeyBlock ∧
      layoutExact (zeroSeedKey.drop 32) privKeyBlock = some layout ∧
      out = EncodeToMemory ⟨ascii "OPENSSH PRIVATE KEY", layout⟩ ∧
      pemDecode (ascii "OPENSSH PRIVATE KEY") out = some layout := by
  refine ⟨by decide, by decide, ?_⟩
  obtain ⟨out, privKeyBlock, layout, _, _, h1, h2, h3, h4, h5, _⟩ :=
    outer_layout_exact zeroSeedKey (ascii "test") 7 (by decide) (by decide)
  exact ⟨out, privKeyBlock, layout, h1, h2, h3, h4, h5⟩

/-- C2 (as stated) fails, for the key of the zero seed, a comment of `2 ^ 32`
bytes `61` and check integer 0: the private-key block has `2 ^ 32 + 136`
bytes, the four bytes written in front of it are `00 00 00 88`, which is the
big-endian form of 136, and no 4-byte big-endian length of the block exists,
so the bytes in the envelope are not the stated layout. -/
theorem outer_layout_fails_long_comment :
    zeroSeedKey.length = 64 ∧
    ∃ out privKeyBlock,
      marshalED25519PrivateKey zeroSeedKey longComment 0 = some out ∧
      privKeyBlock = (wOf (zeroSeedKey.drop 32)
        (pk1Padded (pk1Init zeroSeedKey longComment 0 (zeroSeedKey.drop 32)))).PrivKeyBlock ∧
      privKeyBlock.length = 2 ^ 32 + 136 ∧
      out = EncodeToMemory ⟨ascii "OPENSSH PRIVATE KEY",
        ascii "openssh-key-v1" ++ [0] ++ lp (ascii "none") ++ lp (ascii "none") ++ lp (ascii "") ++
          be32 1 ++ lp (lp (ascii "ssh-ed25519") ++ lp (zeroSeedKey.drop 32)) ++
          ([0x00, 0x00, 0x00, 0x88] ++ privKeyBlock)⟩ ∧
      readU32 [0x00, 0x00, 0x00, 0x88] = some (136, []) ∧
      lpExact privKeyBlock = none ∧
      layoutExact (zeroSeedKey.drop 32) privKeyBlock = none ∧
      ¬ ∃ layout, layoutExact (zeroSeedKey.drop 32) privKeyBlock = some layout ∧
        out = EncodeToMemory ⟨ascii "OPENSSH PRIVATE KEY", layout⟩ := by
  have hpub : (zeroSeedKey.drop 32).length = 32 := by decide
  have hlen := length_block_longComment
  have hge : 2 ^ 32 ≤ (wOf (zeroSeedKey.drop 32) (pk1Padded (pk1Init zeroSeedKey longComment 0
      (zeroSeedKey.drop 32)))).PrivKeyBlock.length := by
    rw [hlen]; omega
  have hm := marshal_layout zeroSeedKey longComment 0 _
    (Public_of_length zeroSeedKey length_zeroSeedKey) hpub
  have hlp : lp (wOf (zeroSeedKey.drop 32) (pk1Padded (pk1Init zeroSeedKey longComment 0
      (zeroSeedKey.drop 32)))).PrivKeyBlock =
      [0x00, 0x00, 0x00, 0x88] ++ (wOf (zeroSeedKey.drop 32) (pk1Padded (pk1Init zeroSeedKey
        longComment 0 (zeroSeedKey.drop 32)))).PrivKeyBlock := by
    rw [lp, hlen]
    have hb : ([byte ((2 ^ 32 + 136) % 2 ^ 32 / 2 ^ 24), byte ((2 ^ 32 + 136) % 2 ^ 32 / 2 ^ 16),
        byte ((2 ^ 32 + 136) % 2 ^ 32 / 2 ^ 8), byte ((2 ^ 32 + 136) % 2 ^ 32)] : List Byte) =
        [0x00, 0x00, 0x00, 0x88] := by decide
    rw [hb]
  refine ⟨length_zeroSeedKey, _, _, hm, rfl, hlen, ?_, by decide, lpExact_long _ hge,
    layoutExact_long _ _ hge, ?_⟩
  · rw [outerLayout, hlp]
    rfl
  · rintro ⟨layout, hl, _⟩
    rw [layoutExact_long _ _ hge] at hl
    exact Option.noConfusion hl

/-- C3. For every key for which `key.Public()` returns (at least 32 bytes) and
every comment, with `L = blockLen` the length of the marshalled private-key
block without padding and `padLen` the number of padding bytes:
`padLen ≤ 7`, `L + padLen` is a multiple of 8, and the private-key block
embedded in the returned container has length `L + padLen`, a multiple of 8.
The returned container is the outer layout around that block. -/
theorem padding_alignment (key comment : List Byte) (ci : Nat) (hk : 32 ≤ key.length) :
    ∃ pubKey, Public key = some pubKey ∧
      0 ≤ padLen (pk1Init key comment ci pubKey) ∧
      padLen (pk1Init key comment ci pubKey) ≤ 7 ∧
      blockLen (pk1Init key comment ci pubKey) =
        (be32 ci ++ be32 ci ++ lp KeyAlgoED25519 ++ lp pubKey ++ lp key ++ lp comment).length ∧
      (blockLen (pk1Init key comment ci pubKey) + padLen (pk1Init key comment ci pubKey)) % 8 = 0 ∧
      (wOf pubKey (pk1Padded (pk1Init key comment ci pubKey))).PrivKeyBlock.length =
        blockLen (pk1Init key comment ci pubKey) + padLen (pk1Init key comment ci pubKey) ∧
      (wOf pubKey (pk1Padded (pk1Init key comment ci pubKey))).PrivKeyBlock.length % 8 = 0 ∧
      marshalED25519PrivateKey key comment ci =
        some (EncodeToMemory ⟨ascii "OPENSSH PRIVATE KEY", outerLayout pubKey
          (wOf pubKey (pk1Padded (pk1Init key comment ci pubKey))).PrivKeyBlock⟩) := by
  obtain ⟨pubKey, hP, hpl⟩ := Public_isSome key hk
  have hlen : (wOf pubKey (pk1Padded (pk1Init key comment ci pubKey))).PrivKeyBlock.length =
      blockLen (pk1Init key comment ci pubKey) + padLen (pk1Init key comment ci pubKey) := by
    show (Marshal (pk1Padded (pk1Init key comment ci pubKey)).fields).length = _
    rw [Marshal_pk1Padded _ rfl, List.length_append, length_padBytes]
    rfl
  refine ⟨pubKey, hP, Nat.zero_le _, padLen_le _, ?_, padLen_aligned _, hlen, ?_,
    marshal_layout key comment ci pubKey hP hpl⟩
  · rw [blockLen, Marshal_pk1]
    simp [pk1Init]
  · rw [hlen]
    exact padLen_aligned _

/-- Witness for C3: the all-zero key with the comment `test`. -/
theorem padding_alignment_witness :
    32 ≤ (List.replicate 64 (0 : Byte)).length ∧
    ∃ pubKey, Public (List.replicate 64 0) = some pubKey ∧
      padLen (pk1Init (List.replicate 64 0) (ascii "test") 7 pubKey) ≤ 7 ∧
      (wOf pubKey (pk1Padded (pk1Init (List.replicate 64 0) (ascii "test") 7
        pubKey))).PrivKeyBlock.length % 8 = 0 := by
  refine ⟨by decide, ?_⟩
  obtain ⟨pubKey, hP, _, h1, _, _, _, h2, _⟩ :=
    padding_alignment (List.replicate 64 0) (ascii "test") 7 (by decide)
  exact ⟨pubKey, hP, h1, h2⟩

/-- C4. For every key for which `key.Public()` returns and every comment, the
private-key block embedded in the returned container is the block without
padding followed by exactly `padLen` bytes, and these bytes have the values
`1, 2, ..., padLen` in this order: the `i`-th of them, counted from 1, is `i`.
The returned container is the outer layout around that block. -/
theorem padding_content (key comment : List Byte) (ci : Nat) (hk : 32 ≤ key.length) :
    ∃ pubKey pad, Public key = some pubKey ∧
      (wOf pubKey (pk1Padded (pk1Init key comment ci pubKey))).PrivKeyBlock =
        Marshal (pk1Init key comment ci pubKey).fields ++ pad ∧
      Marshal (pk1Init key comment ci pubKey).fields =
        be32 ci ++ be32 ci ++ lp KeyAlgoED25519 ++ lp pubKey ++ lp key ++ lp comment ∧
      pad.length = padLen (pk1Init key comment ci pubKey) ∧
      pad.map (fun b => b.val) = List.range' 1 (padLen (pk1Init key comment ci pubKey)) ∧
      (∀ i, 1 ≤ i → i ≤ padLen (pk1Init key comment ci pubKey) →
        (pad.map (fun b => b.val)).get? (i - 1) = some i) ∧
      marshalED25519PrivateKey key comment ci =
        some (EncodeToMemory ⟨ascii "OPENSSH PRIVATE KEY", outerLayout pubKey
          (wOf pubKey (pk1Padded (pk1Init key comment ci pubKey))).PrivKeyBlock⟩) := by
  obtain ⟨pubKey, hP, hpl⟩ := Public_isSome key hk
  have hle := padLen_le (pk1Init key comment ci pubKey)
  have hval : (padBytes (padLen (pk1Init key comment ci pubKey))).map (fun b => b.val) =
      List.range' 1 (padLen (pk1Init key comment ci pubKey)) := by
    generalize padLen (pk1Init key comment ci pubKey) = n at hle
    interval_cases n <;> decide
  refine ⟨pubKey, padBytes (padLen (pk1Init key comment ci pubKey)), hP,
    Marshal_pk1Padded _ rfl, ?_, length_padBytes _, hval, ?_, marshal_layout key comment ci pubKey hP hpl⟩
  · rw [Marshal_pk1]
    simp [pk1Init]
  · intro i h1 h2
    rw [hval]
    generalize padLen (pk1Init key comment ci pubKey) = n at hle h2
    interval_cases n <;> interval_cases i <;> rfl

/-- Witness for C4: the all-zero key with the comment `test`. -/
theorem padding_content_witness :
    32 ≤ (List.replicate 64 (0 : Byte)).length ∧
    ∃ pubKey pad, Public (List.replicate 64 0) = some pubKey ∧
      (wOf pubKey (pk1Padded (pk1Init (List.replicate 64 0) (ascii "test") 7
        pubKey))).PrivKeyBlock =
        Marshal (pk1Init (List.replicate 64 0) (ascii "test") 7 pubKey).fields ++ pad ∧
      pad.map (fun b => b.val) =
        List.range' 1 (padLen (pk1Init (List.replicate 64 0) (ascii "test") 7 pubKey)) := by
  refine ⟨by decide, ?_⟩
  obtain ⟨pubKey, pad, hP, h1, _, _, h2, _, _⟩ :=
    padding_content (List.replicate 64 0) (ascii "test") 7 (by decide)
  exact ⟨pubKey, pad, hP, h1, h2⟩

/-- C5. For every key for which `key.Public()` returns, every comment and
every 32-bit value `ci` returned by `rand.Uint32()`, the private-key block
embedded in the returned container starts with two 4-byte big-endian integers
that both have the value `ci`; bytes 0..3 of the block equal bytes 4..7.
The returned container is the outer layout around that block. -/
theorem check_integers_equal (key comment : List Byte) (ci : Nat) (hk : 32 ≤ key.length)
    (hci : ci < 2 ^ 32) :
    ∃ pubKey block, Public key = some pubKey ∧
      block = (wOf pubKey (pk1Padded (pk1Init key comment ci pubKey))).PrivKeyBlock ∧
      8 ≤ block.length ∧
      block.take 4 = (block.drop 4).take 4 ∧
      readU32 block = some (ci, block.drop 4) ∧
      readU32 (block.drop 4) = some (ci, block.drop 8) ∧
      marshalED25519PrivateKey key comment ci =
        some (EncodeToMemory ⟨ascii "OPENSSH PRIVATE KEY", outerLayout pubKey
          (wOf pubKey (pk1Padded (pk1Init key comment ci pubKey))).PrivKeyBlock⟩) := by
  obtain ⟨pubKey, hP, hpl⟩ := Public_isSome key hk
  have hb : (wOf pubKey (pk1Padded (pk1Init key comment ci pubKey))).PrivKeyBlock =
      be32 ci ++ (be32 ci ++ (lp KeyAlgoED25519 ++ lp pubKey ++ lp key ++ lp comment ++
        padBytes (padLen (pk1Init key comment ci pubKey)))) := by
    show Marshal (pk1Padded (pk1Init key comment ci pubKey)).fields = _
    rw [Marshal_pk1Padded _ rfl, Marshal_pk1]
    simp [pk1Init]
  refine ⟨pubKey, _, hP, rfl, ?_, ?_, ?_, ?_, marshal_layout key comment ci pubKey hP hpl⟩
  · rw [hb]
    simp only [List.length_append, length_be32]
    omega
  · rw [hb]
    rfl
  · rw [hb, readU32_be32, Nat.mod_eq_of_lt hci]
    rfl
  · rw [hb]
    show readU32 (be32 ci ++ _) = _
    rw [readU32_be32, Nat.mod_eq_of_lt hci]
    rfl

/-- Witness for C5: the all-zero key, the comment `test`, check integer 7. -/
theorem check_integers_equal_witness :
    32 ≤ (List.replicate 64 (0 : Byte)).length ∧ 7 < 2 ^ 32 ∧
    ∃ pubKey block, Public (List.replicate 64 0) = some pubKey ∧
      block = (wOf pubKey (pk1Padded (pk1Init (List.replicate 64 0) (ascii "test") 7
        pubKey))).PrivKeyBlock ∧
      block.take 4 = (block.drop 4).take 4 ∧
      readU32 block = some (7, block.drop 4) ∧
      readU32 (block.drop 4) = some (7, block.drop 8) := by
  refine ⟨by decide, by decide, ?_⟩
  obtain ⟨pubKey, block, hP, hb, _, h1, h2, h3, _⟩ :=
    check_integers_equal (List.replicate 64 0) (ascii "test") 7 (by decide) (by decide)
  exact ⟨pubKey, block, hP, hb, h1, h2, h3⟩

/-- C9 (as amended). The encoder has no error result. For every private key of
at least 32 bytes, in particular for every 64-byte key, and every comment it
returns a container: an envelope labelled `OPENSSH PRIVATE KEY` around the
`openssh-key-v1` layout. -/
theorem marshal_returns_container (key comment : List Byte) (ci : Nat) (hk : 32 ≤ key.length) :
    ∃ out pubKey block, marshalED25519PrivateKey key comment ci = some out ∧
      Public key = some pubKey ∧
      out = EncodeToMemory ⟨ascii "OPENSSH PRIVATE KEY", outerLayout pubKey block⟩ ∧
      pemDecode (ascii "OPENSSH PRIVATE KEY") out = some (outerLayout pubKey block) := by
  obtain ⟨pubKey, hP, hlen⟩ := Public_isSome key hk
  have hm := marshal_eq key comment ci pubKey hP
  rw [containerOf_layout _ _ hlen] at hm
  exact ⟨_, pubKey, _, hm, hP, rfl, pemDecode_EncodeToMemory _ _⟩

/-- Witness for C9 (as amended): a key of 65 zero bytes. -/
theorem marshal_returns_container_witness :
    32 ≤ (List.replicate 65 (0 : Byte)).length ∧
    ∃ out pubKey block, marshalED25519PrivateKey (List.replicate 65 0) (ascii "test") 7 = some out ∧
      Public (List.replicate 65 0) = some pubKey ∧
      out = EncodeToMemory ⟨ascii "OPENSSH PRIVATE KEY", outerLayout pubKey block⟩ ∧
      pemDecode (ascii "OPENSSH PRIVATE KEY") out = some (outerLayout pubKey block) :=
  ⟨by decide, marshal_returns_container (List.replicate 65 0) (ascii "test") 7 (by decide)⟩

/-- C9 (as stated) fails: for a private key of 65 bytes, a length other than
64, the encoder returns a container and reports no error. -/
theorem marshal_no_error_on_bad_length :
    (List.replicate 65 (0 : Byte)).length ≠ 64 ∧
      (marshalED25519PrivateKey (List.replicate 65 0) (ascii "test") 7).isSome = true ∧
      ((marshalED25519PrivateKey (List.replicate 65 0) (ascii "test") 7).bind
        (pemDecode (ascii "OPENSSH PRIVATE KEY"))).isSome = true := by
  obtain ⟨pubKey, hP, hlen⟩ := Public_isSome (List.replicate 65 0) (by decide)
  have hm := marshal_eq (List.replicate 65 0) (ascii "test") 7 pubKey hP
  refine ⟨by decide, ?_, ?_⟩
  · rw [hm]; rfl
  · rw [hm, Option.some_bind]
    show (pemDecode pemLabel _).isSome = true
    rw [pemDecode_EncodeToMemory]
    rfl


/-! ## The orchestration: claims about `singleUseSSHCertificate` and `SSHConnect` -/

/-- C8. For every context and organization, whenever key generation succeeds
with public key `pub`, so that the authority is reached,
`singleUseSSHCertificate` calls the authority exactly once, with the
principals `["root", "fly"]`, a validity of 1 hour and the public key `pub`;
the principals, the validity and the public key are the same for every
context and organization. -/
theorem fixed_issuance_request {Ctx Org : Type} (world : World Ctx Org) (ctx : Ctx) (org : Org)
    (pub priv : List Byte) (hg : world.GenerateKey = (pub, priv, none)) :
    issuedRequests (singleUseSSHCertificate world ctx org).1 =
        [{ ctx := ctx, org := org, principals := ["root", "fly"], appNames := none,
           validHours := some 1, publicKey := pub }] ∧
      ∀ (ctx2 : Ctx) (org2 : Org),
        (issuedRequests (singleUseSSHCertificate world ctx2 org2).1).map
            (fun req => (req.principals, req.validHours, req.publicKey)) =
          (issuedRequests (singleUseSSHCertificate world ctx org).1).map
            (fun req => (req.principals, req.validHours, req.publicKey)) := by
  have key : ∀ (c : Ctx) (o : Org), issuedRequests (singleUseSSHCertificate world c o).1 =
      [{ ctx := c, org := o, principals := ["root", "fly"], appNames := none,
         validHours := some 1, publicKey := pub }] := by
    intro c o
    rcases hi : world.IssueSSHCertificate ⟨c, o, ["root", "fly"], none, some 1, pub⟩ with
      ⟨icert, _ | err⟩
    · rw [singleUse_ok world c o pub priv icert hg hi]; rfl
    · rw [singleUse_issueError world c o pub priv icert err hg hi]; rfl
  refine ⟨key ctx org, ?_⟩
  intro ctx2 org2
  rw [key ctx2 org2, key ctx org]
  rfl

/-- Witness for C8: a world in which key generation succeeds. -/
theorem fixed_issuance_request_witness :
    worldOk.GenerateKey = (List.replicate 32 0, List.replicate 64 0, none) ∧
      issuedRequests (singleUseSSHCertificate worldOk 1 2).1 =
        [{ ctx := 1, org := 2, principals := ["root", "fly"], appNames := none,
           validHours := some 1, publicKey := List.replicate 32 0 }] :=
  ⟨rfl, (fixed_issuance_request worldOk 1 2 _ _ rfl).1⟩

/-- C7. For every context and organization: if key generation succeeds and the
call of the authority made by `singleUseSSHCertificate` returns an error, then
`singleUseSSHCertificate` returns no certificate and no key together with that
error, and `SSHConnect` returns an error without encoding a private key and
without a connection attempt; if key generation returns an error, then
`singleUseSSHCertificate` returns no certificate and no key together with that
error, the authority is never called, and `SSHConnect` again returns an error
without encoding a key and without a connection attempt. -/
theorem no_partial_credential {Ctx Org : Type} (world : World Ctx Org) (p : SSHParams Ctx Org)
    (addr : String) :
    (∀ pub priv icert err, world.GenerateKey = (pub, priv, none) →
      world.IssueSSHCertificate ⟨p.Ctx, p.Org, ["root", "fly"], none, some 1, pub⟩ =
        (icert, some err) →
      (singleUseSSHCertificate world p.Ctx p.Org).2 = { cert := none, key := none, err := some err } ∧
      (∃ e, (SSHConnect world p addr).2 = .returned (some e)) ∧
      ∀ ev ∈ (SSHConnect world p addr).1, ev.isMarshal = false ∧ ev.isConnect = false) ∧
    (∀ pub priv err, world.GenerateKey = (pub, priv, some err) →
      (singleUseSSHCertificate world p.Ctx p.Org).2 = { cert := none, key := none, err := some err } ∧
      issuedRequests (singleUseSSHCertificate world p.Ctx p.Org).1 = [] ∧
      (∀ ev ∈ (singleUseSSHCertificate world p.Ctx p.Org).1, ev.isIssue = false) ∧
      (∃ e, (SSHConnect world p addr).2 = .returned (some e)) ∧
      ∀ ev ∈ (SSHConnect world p addr).1,
        ev.isIssue = false ∧ ev.isMarshal = false ∧ ev.isConnect = false) := by
  constructor
  · intro pub priv icert err hg hi
    have h := singleUse_issueError world p.Ctx p.Org pub priv icert err hg hi
    rw [SSHConnect_of_error world p addr _ _ _ _ h, h]
    refine ⟨rfl, ⟨_, rfl⟩, ?_⟩
    intro ev hev
    simp only [List.mem_cons, List.not_mem_nil, or_false] at hev
    rcases hev with rfl | rfl <;> exact ⟨rfl, rfl⟩
  · intro pub priv err hg
    have h := singleUse_genError world p.Ctx p.Org pub priv err hg
    rw [SSHConnect_of_error world p addr _ _ _ _ h, h]
    refine ⟨rfl, rfl, ?_, ⟨_, rfl⟩, ?_⟩
    · intro ev hev
      simp only [List.mem_cons, List.not_mem_nil, or_false] at hev
      rw [hev]; rfl
    · intro ev hev
      simp only [List.mem_cons, List.not_mem_nil, or_false] at hev
      rw [hev]; exact ⟨rfl, rfl, rfl⟩

/-- Witness for C7: a world in which the authority fails. -/
theorem no_partial_credential_witness :
    worldIssueFails.GenerateKey = (List.replicate 32 0, List.replicate 64 0, none) ∧
      worldIssueFails.IssueSSHCertificate
        ⟨sampleParams.Ctx, sampleParams.Org, ["root", "fly"], none, some 1, List.replicate 32 0⟩ =
        (none, some sampleError) ∧
      (singleUseSSHCertificate worldIssueFails sampleParams.Ctx sampleParams.Org).2 =
        { cert := none, key := none, err := some sampleError } ∧
      (∃ e, (SSHConnect worldIssueFails sampleParams "host").2 = .returned (some e)) ∧
      ∀ ev ∈ (SSHConnect worldIssueFails sampleParams "host").1,
        ev.isMarshal = false ∧ ev.isConnect = false :=
  ⟨rfl, rfl, (no_partial_credential worldIssueFails sampleParams "host").1 _ _ _ _ rfl rfl⟩

/-- C6. Whenever `singleUseSSHCertificate` succeeds, with a key generator that
returned `(pub, priv)` where `priv` has 64 bytes and `priv[32:64] = pub`: the
authority was called once, the public key of that request is `pub`, the
returned certificate is the response of the authority to that request, the
returned key is `priv`, and for every comment and check integer the container
that `marshalED25519PrivateKey` builds for the returned key holds the public
key of the request both in its public-key record and in its private-key block.
In `SSHConnect` the client that connects carries that certificate and that
container. -/
theorem credential_pairing {Ctx Org : Type} (world : World Ctx Org) (p : SSHParams Ctx Org)
    (addr : String) (pub priv : List Byte) (gerr : Option GoError)
    (hg : world.GenerateKey = (pub, priv, gerr)) (hlen : priv.length = 64)
    (hpp : priv.drop 32 = pub)
    (hs : (singleUseSSHCertificate world p.Ctx p.Org).2.err = none) :
    ∃ req, issuedRequests (singleUseSSHCertificate world p.Ctx p.Org).1 = [req] ∧
      req.publicKey = pub ∧
      world.IssueSSHCertificate req = ((singleUseSSHCertificate world p.Ctx p.Org).2.cert, none) ∧
      (singleUseSSHCertificate world p.Ctx p.Org).2.key = some priv ∧
      (∀ comment ci, ∃ out pad, marshalED25519PrivateKey priv comment ci = some out ∧
        pemDecode (ascii "OPENSSH PRIVATE KEY") out =
          some (ascii "openssh-key-v1" ++ [0] ++ lp (ascii "none") ++ lp (ascii "none") ++
            lp (ascii "") ++ be32 1 ++ lp (lp (ascii "ssh-ed25519") ++ lp req.publicKey) ++
            lp (be32 ci ++ be32 ci ++ lp (ascii "ssh-ed25519") ++ lp req.publicKey ++ lp priv ++
              lp comment ++ pad))) ∧
      ∀ c, Event.connect c ∈ (SSHConnect world p addr).1 →
        ∃ icert, (singleUseSSHCertificate world p.Ctx p.Org).2.cert = some icert ∧
          c.Certificate = icert.Certificate ∧
          marshalED25519PrivateKey priv (ascii "single-use certificate") world.Uint32 =
            some c.PrivateKey := by
  cases gerr with
  | some err =>
    rw [singleUse_genError world p.Ctx p.Org pub priv err hg] at hs
    exact absurd hs (by simp)
  | none =>
    rcases hi : world.IssueSSHCertificate ⟨p.Ctx, p.Org, ["root", "fly"], none, some 1, pub⟩ with
      ⟨icert, _ | err⟩
    · have h := singleUse_ok world p.Ctx p.Org pub priv icert hg hi
      have hpub : pub.length = 32 := by rw [← hpp]; simp [hlen]
      have hP : Public priv = some pub := by rw [Public_of_length priv hlen, hpp]
      refine ⟨⟨p.Ctx, p.Org, ["root", "fly"], none, some 1, pub⟩, ?_, rfl, ?_, ?_, ?_, ?_⟩
      · rw [h]; rfl
      · rw [h, hi]
      · rw [h]
      · intro comment ci
        refine ⟨_, padBytes (padLen (pk1Init priv comment ci pub)),
          marshal_eq priv comment ci pub hP, ?_⟩
        rw [containerOf_layout _ _ hpub, Marshal_pk1Padded _ rfl, Marshal_pk1]
        simp only [pk1Init, List.append_nil]
        exact pemDecode_EncodeToMemory _ _
      · intro c hc
        rw [h]
        refine SSHConnect_connect_event world p addr _ icert priv h ?_ c hc
        intro ev hev
        simp only [List.mem_cons, List.not_mem_nil, or_false] at hev
        rcases hev with rfl | rfl <;> rfl
    · rw [singleUse_issueError world p.Ctx p.Org pub priv icert err hg hi] at hs
      exact absurd hs (by simp)

/-- Witness for C6: a world in which key generation and issuance succeed. -/
theorem credential_pairing_witness :
    worldOk.GenerateKey = (List.replicate 32 0, List.replicate 64 0, none) ∧
    (List.replicate 64 (0 : Byte)).length = 64 ∧
    (List.replicate 64 (0 : Byte)).drop 32 = List.replicate 32 0 ∧
    (singleUseSSHCertificate worldOk sampleParams.Ctx sampleParams.Org).2.err = none ∧
    ∃ req, issuedRequests (singleUseSSHCertificate worldOk sampleParams.Ctx sampleParams.Org).1 =
        [req] ∧
      req.publicKey = List.replicate 32 0 ∧
      worldOk.IssueSSHCertificate req =
        ((singleUseSSHCertificate worldOk sampleParams.Ctx sampleParams.Org).2.cert, none) ∧
      (singleUseSSHCertificate worldOk sampleParams.Ctx sampleParams.Org).2.key =
        some (List.replicate 64 0) := by
  refine ⟨rfl, by decide, by decide, rfl, ?_⟩
  obtain ⟨req, h1, h2, h3, h4, _⟩ :=
    credential_pairing worldOk sampleParams "host" (List.replicate 32 0) (List.replicate 64 0)
      none rfl (by decide) (by decide) rfl
  exact ⟨req, h1, h2, h3, h4⟩

/-- C10 (as amended). When key generation or certificate issuance fails inside
`singleUseSSHCertificate`, the caller receives the original error value
unchanged and without a tag that names the step: for the same error value a
key-generation failure and an issuance failure give the same results
`(nil, nil, err)`, and `SSHConnect` wraps both in the same error
`create ssh certificate: err (...)`. -/
theorem error_propagation_untagged {Ctx Org : Type} (world1 world2 : World Ctx Org)
    (p : SSHParams Ctx Org) (addr : String) (err : GoError) (pub1 priv1 pub2 priv2 : List Byte)
    (icert : Option IssuedCertificate)
    (hg1 : world1.GenerateKey = (pub1, priv1, some err))
    (hg2 : world2.GenerateKey = (pub2, priv2, none))
    (hi2 : world2.IssueSSHCertificate ⟨p.Ctx, p.Org, ["root", "fly"], none, some 1, pub2⟩ =
      (icert, some err)) :
    (singleUseSSHCertificate world1 p.Ctx p.Org).2 = { cert := none, key := none, err := some err } ∧
    (singleUseSSHCertificate world2 p.Ctx p.Org).2 = { cert := none, key := none, err := some err } ∧
    (SSHConnect world1 p addr).2 =
      .returned (some (.errorf "create ssh certificate: " err establishHint)) ∧
    (SSHConnect world2 p addr).2 =
      .returned (some (.errorf "create ssh certificate: " err establishHint)) := by
  have h1 := singleUse_genError world1 p.Ctx p.Org pub1 priv1 err hg1
  have h2 := singleUse_issueError world2 p.Ctx p.Org pub2 priv2 icert err hg2 hi2
  rw [SSHConnect_of_error world1 p addr _ _ _ _ h1, SSHConnect_of_error world2 p addr _ _ _ _ h2,
    h1, h2]
  exact ⟨rfl, rfl, rfl, rfl⟩

/-- Witness for C10 (as amended): the two failing worlds with `sampleError`. -/
theorem error_propagation_untagged_witness :
    worldGenFails.GenerateKey = ([], [], some sampleError) ∧
    worldIssueFails.GenerateKey = (List.replicate 32 0, List.replicate 64 0, none) ∧
    worldIssueFails.IssueSSHCertificate
      ⟨sampleParams.Ctx, sampleParams.Org, ["root", "fly"], none, some 1, List.replicate 32 0⟩ =
      (none, some sampleError) ∧
    (singleUseSSHCertificate worldGenFails sampleParams.Ctx sampleParams.Org).2 =
      { cert := none, key := none, err := some sampleError } ∧
    (singleUseSSHCertificate worldIssueFails sampleParams.Ctx sampleParams.Org).2 =
      { cert := none, key := none, err := some sampleError } ∧
    (SSHConnect worldGenFails sampleParams "host").2 =
      .returned (some (.errorf "create ssh certificate: " sampleError establishHint)) ∧
    (SSHConnect worldIssueFails sampleParams "host").2 =
      .returned (some (.errorf "create ssh certificate: " sampleError establishHint)) :=
  ⟨rfl, rfl, rfl,
    error_propagation_untagged worldGenFails worldIssueFails sampleParams "host" sampleError
      _ _ _ _ _ rfl rfl rfl⟩

/-- C10 (as stated) fails: with the same error value, a failure of key
generation and a failure of issuance give equal results of
`singleUseSSHCertificate` and equal results of `SSHConnect`, so the caller
cannot tell the steps apart. -/
theorem error_steps_indistinguishable :
    worldGenFails.GenerateKey.2.2 = some sampleError ∧
    worldIssueFails.GenerateKey.2.2 = none ∧
    (worldIssueFails.IssueSSHCertificate
      ⟨sampleParams.Ctx, sampleParams.Org, ["root", "fly"], none, some 1,
        worldIssueFails.GenerateKey.1⟩).2 = some sampleError ∧
    (singleUseSSHCertificate worldGenFails sampleParams.Ctx sampleParams.Org).2 =
      (singleUseSSHCertificate worldIssueFails sampleParams.Ctx sampleParams.Org).2 ∧
    (SSHConnect worldGenFails sampleParams "host").2 =
      (SSHConnect worldIssueFails sampleParams "host").2 := by
  refine ⟨rfl, rfl, rfl, ?_, ?_⟩
  · rfl
  · rfl

end SSHTerminal
